import Mathlib

set_option maxHeartbeats 2000000
set_option maxRecDepth 4000

/-!
Verification development for the Monte Carlo portfolio risk engine
(services/professional_monte_carlo.py).  Python functions are embedded
as Lean definitions: numpy arrays of portfolio values become lists of
lists of rationals (or real-valued functions where the code applies
transcendental functions), float arithmetic that can produce non-finite
values is modelled with Option-valued arithmetic, and external numeric
primitives (numpy eigendecomposition, the normal random stream) are
written as explicit parameters constrained by the contracts the code
relies on.
-/

/-- Embedding of the antithetic-variates step of
`_run_parallel_simulation` and `_run_sequential_simulation`:
`antithetic_results = 2 * results[0:1, :] - results` followed by
`np.concatenate([results, antithetic_results], axis=0)`.
`results[0:1, :]` is the first row of the matrix, broadcast against
every row. -/
def applyAntithetic (results : List (List ℚ)) : List (List ℚ) :=
  let firstRow := results.headD []
  results ++ results.map (fun row => List.zipWith (fun a b => 2 * a - b) firstRow row)

/-- Embedding of the batch partition in `_run_parallel_simulation`:
`batch_size = max(1, n_base_sims // max_workers)`,
`batches = [batch_size] * (n_base_sims // batch_size)` plus the
remainder batch when `n_base_sims % batch_size > 0`. -/
def computeBatches (nBaseSims maxWorkers : ℕ) : List ℕ :=
  let batchSize := max 1 (nBaseSims / maxWorkers)
  let batches := List.replicate (nBaseSims / batchSize) batchSize
  if nBaseSims % batchSize > 0 then batches ++ [nBaseSims % batchSize] else batches

/-- Embedding of the halving in `run_monte_carlo_simulation`:
`n_base_sims = n_sims // 2` when antithetic variates are enabled,
otherwise `n_base_sims = n_sims`. -/
def nBaseSimsOf (useAntithetic : Bool) (nSims : ℕ) : ℕ :=
  if useAntithetic then nSims / 2 else nSims

/-- Embedding of `_run_parallel_simulation`, parametrised by the
batch simulator `sim` (the closure `simulate_batch`, which returns one
row per requested path): run every batch, concatenate the results in
order, then apply the antithetic step when enabled. -/
def runParallelSimulation (sim : ℕ → List (List ℚ)) (useAntithetic : Bool)
    (nSims maxWorkers : ℕ) : List (List ℚ) :=
  let results := ((computeBatches (nBaseSimsOf useAntithetic nSims) maxWorkers).map sim).flatten
  if useAntithetic then applyAntithetic results else results

theorem computeBatches_sum (nBaseSims maxWorkers : ℕ) :
    (computeBatches nBaseSims maxWorkers).sum = nBaseSims := by
  unfold computeBatches
  set bs := max 1 (nBaseSims / maxWorkers) with hbs
  have hdm := Nat.div_add_mod nBaseSims bs
  by_cases h : nBaseSims % bs > 0
  · rw [if_pos h]
    simp only [List.sum_append, List.sum_replicate, List.sum_cons,
      List.sum_nil, smul_eq_mul, add_zero]
    linarith
  · have h0 : nBaseSims % bs = 0 := Nat.eq_zero_of_not_pos h
    rw [if_neg h]
    simp only [List.sum_replicate, smul_eq_mul]
    linarith

/-- C1 (code_bug): the antithetic step computes
`2 * results[0:1, :] - results`, which reflects every path around the
FIRST SIMULATED PATH (row 0) at each day, not around the initial
portfolio value as both the spec and the adjacent source comment
(`# Reflect around initial value`) state.  On the base matrix
`[[100, 110], [100, 90]]` (initial value 100), the antithetic partner
of path 1 at day 1 is `2 * 110 - 90 = 130`, whereas reflection around
the initial value would give `2 * 100 - 90 = 110`. -/
theorem c1_antithetic_reflects_first_row_not_initial_value :
    applyAntithetic [[100, 110], [100, 90]] =
      [[100, 110], [100, 90], [100, 110], [(100 : ℚ), 130]] ∧
    (2 * 110 - 90 : ℚ) = 130 ∧ (130 : ℚ) ≠ 2 * 100 - 90 := by
  refine ⟨?_, by norm_num, by norm_num⟩
  simp only [applyAntithetic, List.headD, List.zipWith, List.map, List.cons_append,
    List.nil_append]
  norm_num

/-- C3 (code_bug): with antithetic variates enabled and an odd request
`n_sims = 3`, `run_monte_carlo_simulation` halves to
`n_base_sims = 3 // 2 = 1`, the parallel batches sum to 1, and the
antithetic concatenation doubles it back to 2 rows — not the requested
3.  The batch simulator stub returns exactly the requested number of
rows per batch, as `_simulate_portfolio_paths` does. -/
theorem c3_odd_simulation_count_drops_one_row :
    (runParallelSimulation (fun b => List.replicate b [(100 : ℚ)]) true 3 4).length = 2 ∧
    (2 : ℕ) ≠ 3 := by
  refine ⟨by decide, by decide⟩

/-- Embedding of the `AssetParameters` dataclass. -/
structure AssetParameters where
  ticker : String
  currentPrice : ℝ
  dailyMeanReturn : ℝ
  dailyVolatility : ℝ
  drift : ℝ
  sharpe : ℝ
  skewness : ℝ
  kurtosis : ℝ
  lookbackDays : ℕ

/-- Embedding of the correlated shocks of `_simulate_portfolio_paths`:
the raw standard-normal draw `Z` is modelled as a deterministic stream
`rng seed sim day asset` (numpy output is a pure function of the seed,
and the code calls `np.random.seed(42)` before drawing), and
`correlated_Z = np.einsum('ijk,lk->ijl', Z, L)` contracts the asset
axis against the Cholesky factor `L`. -/
def correlatedShock {n : ℕ} (rng : ℕ → ℕ → ℕ → Fin n → ℝ) (seed : ℕ)
    (L : Matrix (Fin n) (Fin n) ℝ) (s d : ℕ) (i : Fin n) : ℝ :=
  ∑ k, rng seed s d k * L i k

/-- Embedding of the per-asset GBM recurrence of
`_simulate_portfolio_paths`:
`asset_prices[:, day, i] = asset_prices[:, day-1, i] * np.exp(drift + vol * correlated_Z[:, day-1, i])`,
starting from the current price, with the seed fixed to 42 inside the
function as the source does. -/
noncomputable def assetPrice {n : ℕ} (params : Fin n → AssetParameters)
    (rng : ℕ → ℕ → ℕ → Fin n → ℝ) (L : Matrix (Fin n) (Fin n) ℝ)
    (s : ℕ) (i : Fin n) : ℕ → ℝ
  | 0 => (params i).currentPrice
  | d + 1 => assetPrice params rng L s i d *
      Real.exp ((params i).drift +
        (params i).dailyVolatility * correlatedShock rng 42 L s d i)

/-- Embedding of the portfolio-value rows of
`_simulate_portfolio_paths`: day 0 is the full weighted sum of current
prices; for later days the code adds `weight * asset_prices[:, day, i]`
only when `weight > 0`. -/
noncomputable def portfolioValue {n : ℕ} (params : Fin n → AssetParameters)
    (weights : Fin n → ℝ) (rng : ℕ → ℕ → ℕ → Fin n → ℝ)
    (L : Matrix (Fin n) (Fin n) ℝ) (s : ℕ) : ℕ → ℝ
  | 0 => ∑ i, weights i * (params i).currentPrice
  | d + 1 => ∑ i, if 0 < weights i then weights i * assetPrice params rng L s i (d + 1) else 0

/-- Embedding of the `[n_sims, time_horizon_days + 1]` matrix returned
by `_simulate_portfolio_paths`, one row per simulation index. -/
noncomputable def simulatePortfolioPaths {n : ℕ} (params : Fin n → AssetParameters)
    (weights : Fin n → ℝ) (rng : ℕ → ℕ → ℕ → Fin n → ℝ)
    (L : Matrix (Fin n) (Fin n) ℝ) (timeHorizonDays nSims : ℕ) : List (List ℝ) :=
  (List.range nSims).map (fun s =>
    (List.range (timeHorizonDays + 1)).map (fun d => portfolioValue params weights rng L s d))

/-- Embedding of the batch fan-out of `_run_parallel_simulation`: each
batch size in `computeBatches` is handed to the batch simulator, and
the resulting matrices are collected in order.  Because
`_simulate_portfolio_paths` reseeds the global RNG with the constant 42
on every call, each batch output depends only on its size. -/
noncomputable def parallelBatchResults {n : ℕ} (params : Fin n → AssetParameters)
    (weights : Fin n → ℝ) (rng : ℕ → ℕ → ℕ → Fin n → ℝ)
    (L : Matrix (Fin n) (Fin n) ℝ) (timeHorizonDays nBaseSims maxWorkers : ℕ) :
    List (List (List ℝ)) :=
  (computeBatches nBaseSims maxWorkers).map
    (fun b => simulatePortfolioPaths params weights rng L timeHorizonDays b)

/-- C2 (code_bug): with two workers and two base simulations the batch
partition is `[1, 1]`, and because every call to
`_simulate_portfolio_paths` reseeds the global RNG with the same
constant 42, the two distinct parallel batches are identical matrices
for every RNG stream, every parameter set and every horizon —
violating the requirement that distinct batches not be identical.
(Determinism itself does hold: the output is a pure function of the
inputs under the fixed seed.) -/
theorem c2_equal_sized_parallel_batches_are_identical {n : ℕ}
    (params : Fin n → AssetParameters) (weights : Fin n → ℝ)
    (rng : ℕ → ℕ → ℕ → Fin n → ℝ) (L : Matrix (Fin n) (Fin n) ℝ)
    (timeHorizonDays : ℕ) :
    computeBatches 2 2 = [1, 1] ∧
    (parallelBatchResults params weights rng L timeHorizonDays 2 2).getD 0 [] =
      (parallelBatchResults params weights rng L timeHorizonDays 2 2).getD 1 [] := by
  refine ⟨by decide, rfl⟩

/-- C10 (confirmed): with every current price positive, all weights
nonnegative and at least one weight positive, every entry of the base
matrix produced by `_simulate_portfolio_paths` is strictly positive:
asset prices evolve multiplicatively by `exp` from a positive start,
day 0 is the full weighted sum, and later days sum the positive-weight
terms. -/
theorem c10_simulated_portfolio_values_positive {n : ℕ}
    (params : Fin n → AssetParameters) (weights : Fin n → ℝ)
    (rng : ℕ → ℕ → ℕ → Fin n → ℝ) (L : Matrix (Fin n) (Fin n) ℝ)
    (timeHorizonDays nSims : ℕ)
    (hPrice : ∀ i, 0 < (params i).currentPrice)
    (hNonneg : ∀ i, 0 ≤ weights i)
    (hSome : ∃ i, 0 < weights i) :
    (∀ s d, 0 < portfolioValue params weights rng L s d) ∧
    ∀ row ∈ simulatePortfolioPaths params weights rng L timeHorizonDays nSims,
      ∀ v ∈ row, 0 < v := by
  have hAsset : ∀ s i d, 0 < assetPrice params rng L s i d := by
    intro s i d
    induction d with
    | zero => exact hPrice i
    | succ d ih => exact mul_pos ih (Real.exp_pos _)
  have hVal : ∀ s d, 0 < portfolioValue params weights rng L s d := by
    intro s d
    obtain ⟨j, hj⟩ := hSome
    cases d with
    | zero =>
      simp only [portfolioValue]
      exact Finset.sum_pos' (fun i _ => mul_nonneg (hNonneg i) (hPrice i).le)
        ⟨j, Finset.mem_univ j, mul_pos hj (hPrice j)⟩
    | succ d =>
      simp only [portfolioValue]
      refine Finset.sum_pos' (fun i _ => ?_) ⟨j, Finset.mem_univ j, ?_⟩
      · by_cases hw : 0 < weights i
        · simp only [if_pos hw]
          exact (mul_pos hw (hAsset s i (d + 1))).le
        · simp only [if_neg hw]; exact le_refl 0
      · simp only [if_pos hj]
        exact mul_pos hj (hAsset s j (d + 1))
  refine ⟨hVal, ?_⟩
  intro row hrow v hv
  simp only [simulatePortfolioPaths, List.mem_map, List.mem_range] at hrow
  obtain ⟨s, hs, rfl⟩ := hrow
  simp only [List.mem_map, List.mem_range] at hv
  obtain ⟨d, hd, rfl⟩ := hv
  exact hVal s d

/-- Concrete one-asset parameter set used to instantiate C10. -/
noncomputable def exampleParamsOneAsset : Fin 1 → AssetParameters :=
  fun _ => ⟨"SPY", 100, 3 / 10000, 1 / 100, 1 / 4000, 1 / 2, 0, 3, 252⟩

theorem c10_witness :
    0 < portfolioValue exampleParamsOneAsset (fun _ => 1) (fun _ _ _ _ => 0) 1 0 1 :=
  (c10_simulated_portfolio_values_positive exampleParamsOneAsset (fun _ => 1)
    (fun _ _ _ _ => 0) 1 5 3
    (fun _ => by norm_num [exampleParamsOneAsset])
    (fun _ => by norm_num)
    ⟨0, by norm_num⟩).1 0 1

/-- The eigenvalue floor `1e-8` hard-coded in
`_make_positive_semidefinite`. -/
def eigenvalueFloor : ℚ := 1 / 100000000

/-- Embedding of `_make_positive_semidefinite`, downstream of the call
`eigenvals, eigenvecs = np.linalg.eigh(matrix)`: the eigendecomposition
is an external primitive, so its result is passed in explicitly
(`eigenvecs` holds the eigenvectors as columns) and the theorems
constrain it by the contract of `eigh` (orthogonal `eigenvecs`,
reconstruction of the input).  The body is
`eigenvals = np.maximum(eigenvals, 1e-8)` followed by
`eigenvecs @ np.diag(eigenvals) @ eigenvecs.T`. -/
def makePositiveSemidefinite {n : ℕ} (eigenvecs : Matrix (Fin n) (Fin n) ℚ)
    (eigenvals : Fin n → ℚ) : Matrix (Fin n) (Fin n) ℚ :=
  eigenvecs * Matrix.diagonal (fun i => max (eigenvals i) eigenvalueFloor) *
    eigenvecs.transpose

/-- Embedding of the NaN fallback in `calculate_correlation_matrix`:
when any entry of the pandas correlation matrix is NaN, the whole
matrix is replaced by the identity.  The float NaN test is modelled as
a Boolean flag. -/
def handleNaNFallback {n : ℕ} (hasNaN : Bool) (corr : Matrix (Fin n) (Fin n) ℚ) :
    Matrix (Fin n) (Fin n) ℚ :=
  if hasNaN then 1 else corr

/-- Embedding of `calculate_correlation_matrix` downstream of the
pandas correlation computation (whose result is the input `corr`):
apply the NaN fallback, then unconditionally pass the matrix through
`_make_positive_semidefinite`.  `eigenvecs`/`eigenvals` model the
`np.linalg.eigh` output for the NaN-handled matrix. -/
def calculateCorrelationMatrix {n : ℕ} (hasNaN : Bool)
    (corr eigenvecs : Matrix (Fin n) (Fin n) ℚ) (eigenvals : Fin n → ℚ) :
    Matrix (Fin n) (Fin n) ℚ :=
  makePositiveSemidefinite eigenvecs eigenvals

/-- Quadratic-form reading of "every eigenvalue of `A` is at least
`c`": the form `x A x` dominates `c` times the squared norm for every
vector. -/
def quadFormGE {n : ℕ} (A : Matrix (Fin n) (Fin n) ℚ) (c : ℚ) : Prop :=
  ∀ x : Fin n → ℚ, c * (∑ i, x i * x i) ≤ ∑ i, ∑ j, x i * A i j * x j

theorem makePositiveSemidefinite_entry {n : ℕ}
    (eigenvecs : Matrix (Fin n) (Fin n) ℚ) (eigenvals : Fin n → ℚ) (i j : Fin n) :
    makePositiveSemidefinite eigenvecs eigenvals i j =
      ∑ k, eigenvecs i k * max (eigenvals k) eigenvalueFloor * eigenvecs j k := by
  unfold makePositiveSemidefinite
  rw [Matrix.mul_apply]
  refine Finset.sum_congr rfl (fun k _ => ?_)
  rw [Matrix.mul_diagonal, Matrix.transpose_apply]

theorem makePositiveSemidefinite_transpose {n : ℕ}
    (eigenvecs : Matrix (Fin n) (Fin n) ℚ) (eigenvals : Fin n → ℚ) :
    (makePositiveSemidefinite eigenvecs eigenvals).transpose =
      makePositiveSemidefinite eigenvecs eigenvals := by
  ext i j
  rw [Matrix.transpose_apply, makePositiveSemidefinite_entry,
    makePositiveSemidefinite_entry]
  exact Finset.sum_congr rfl (fun k _ => by ring)

theorem makePositiveSemidefinite_quadForm {n : ℕ}
    (eigenvecs : Matrix (Fin n) (Fin n) ℚ) (eigenvals : Fin n → ℚ)
    (hOrth : eigenvecs.transpose * eigenvecs = 1) :
    quadFormGE (makePositiveSemidefinite eigenvecs eigenvals) eigenvalueFloor := by
  intro x
  have hVVt : eigenvecs * eigenvecs.transpose = 1 :=
    Matrix.mul_eq_one_comm.mp hOrth
  set y : Fin n → ℚ := fun k => ∑ i, x i * eigenvecs i k with hy
  have hform : ∑ i, ∑ j, x i * makePositiveSemidefinite eigenvecs eigenvals i j * x j =
      ∑ k, max (eigenvals k) eigenvalueFloor * (y k * y k) := by
    calc ∑ i, ∑ j, x i * makePositiveSemidefinite eigenvecs eigenvals i j * x j
        = ∑ i, ∑ j, ∑ k, max (eigenvals k) eigenvalueFloor *
            ((x i * eigenvecs i k) * (x j * eigenvecs j k)) := by
          refine Finset.sum_congr rfl (fun i _ => Finset.sum_congr rfl (fun j _ => ?_))
          rw [makePositiveSemidefinite_entry, Finset.mul_sum, Finset.sum_mul]
          exact Finset.sum_congr rfl (fun k _ => by ring)
      _ = ∑ i, ∑ k, ∑ j, max (eigenvals k) eigenvalueFloor *
            ((x i * eigenvecs i k) * (x j * eigenvecs j k)) :=
          Finset.sum_congr rfl (fun i _ => Finset.sum_comm)
      _ = ∑ k, ∑ i, ∑ j, max (eigenvals k) eigenvalueFloor *
            ((x i * eigenvecs i k) * (x j * eigenvecs j k)) := Finset.sum_comm
      _ = ∑ k, max (eigenvals k) eigenvalueFloor * (y k * y k) := by
          refine Finset.sum_congr rfl (fun k _ => ?_)
          rw [hy]
          rw [Finset.sum_mul_sum, Finset.mul_sum]
          exact Finset.sum_congr rfl (fun i _ => by rw [Finset.mul_sum])
  have hnorm : ∑ k, y k * y k = ∑ i, x i * x i := by
    calc ∑ k, y k * y k
        = ∑ k, ∑ i, ∑ j, (x i * eigenvecs i k) * (x j * eigenvecs j k) := by
          refine Finset.sum_congr rfl (fun k _ => ?_)
          rw [hy, Finset.sum_mul_sum]
      _ = ∑ i, ∑ j, x i * x j * ∑ k, eigenvecs i k * eigenvecs j k := by
          rw [Finset.sum_comm]
          refine Finset.sum_congr rfl (fun i _ => ?_)
          rw [Finset.sum_comm]
          refine Finset.sum_congr rfl (fun j _ => ?_)
          rw [Finset.mul_sum]
          exact Finset.sum_congr rfl (fun k _ => by ring)
      _ = ∑ i, ∑ j, x i * x j * (1 : Matrix (Fin n) (Fin n) ℚ) i j := by
          refine Finset.sum_congr rfl (fun i _ => Finset.sum_congr rfl (fun j _ => ?_))
          rw [← hVVt]
          simp [Matrix.mul_apply, Matrix.transpose_apply]
      _ = ∑ i, x i * x i := by
          refine Finset.sum_congr rfl (fun i _ => ?_)
          simp [Matrix.one_apply, mul_ite, mul_one, mul_zero]
  rw [hform, ← hnorm, Finset.mul_sum]
  refine Finset.sum_le_sum (fun k _ => ?_)
  exact mul_le_mul_of_nonneg_right (le_max_right _ _) (mul_self_nonneg (y k))

/-- C4 (confirmed): for every symmetric input matrix whose
eigendecomposition reconstructs the NaN-handled input with orthogonal
eigenvectors, the repaired matrix returned by
`calculate_correlation_matrix` satisfies the quadratic-form bound
`x A x ≥ 1e-8 * |x|^2` for every vector `x` (all eigenvalues are at
least the floor), and the repair step is applied unconditionally: the
returned matrix is literally `_make_positive_semidefinite` of the
eigendecomposition, with no guard that skips it for already-PSD
inputs. -/
theorem c4_repair_floors_eigenvalues_and_is_unconditional {n : ℕ} (hasNaN : Bool)
    (corr eigenvecs : Matrix (Fin n) (Fin n) ℚ) (eigenvals : Fin n → ℚ)
    (hSym : corr.transpose = corr)
    (hOrth : eigenvecs.transpose * eigenvecs = 1)
    (hEig : handleNaNFallback hasNaN corr =
      eigenvecs * Matrix.diagonal eigenvals * eigenvecs.transpose) :
    quadFormGE (calculateCorrelationMatrix hasNaN corr eigenvecs eigenvals)
      eigenvalueFloor ∧
    calculateCorrelationMatrix hasNaN corr eigenvecs eigenvals =
      makePositiveSemidefinite eigenvecs eigenvals :=
  ⟨makePositiveSemidefinite_quadForm eigenvecs eigenvals hOrth, rfl⟩

/-- Concrete 1x1 inputs used to instantiate C4: a symmetric matrix with
the single (negative) eigenvalue -2 and identity eigenvectors. -/
def exampleCorrNeg : Matrix (Fin 1) (Fin 1) ℚ := Matrix.diagonal (fun _ => -2)

def exampleEigenvecsOne : Matrix (Fin 1) (Fin 1) ℚ := 1

def exampleEigenvalsNeg : Fin 1 → ℚ := fun _ => -2

theorem c4_witness :
    quadFormGE (calculateCorrelationMatrix false
      exampleCorrNeg exampleEigenvecsOne exampleEigenvalsNeg) eigenvalueFloor :=
  (c4_repair_floors_eigenvalues_and_is_unconditional false
    exampleCorrNeg exampleEigenvecsOne exampleEigenvalsNeg
    (by simp [exampleCorrNeg])
    (by simp [exampleEigenvecsOne])
    (by simp [handleNaNFallback, exampleCorrNeg, exampleEigenvecsOne,
      exampleEigenvalsNeg])).1

/-- C5 (corrected, amended form): every matrix returned by
`calculate_correlation_matrix` is symmetric; and whenever the
eigenvalue clipping is a no-op (all eigenvalues already at least the
1e-8 floor) the repair reconstructs the NaN-handled input exactly, so
unit diagonal and entries in [-1, 1] carry over from it.  (When some
eigenvalue lies below the floor the repair can break the unit diagonal
and the entry bound — see the counterexample.) -/
theorem c5_symmetric_and_preserved_when_no_clipping {n : ℕ} (hasNaN : Bool)
    (corr eigenvecs : Matrix (Fin n) (Fin n) ℚ) (eigenvals : Fin n → ℚ)
    (hOrth : eigenvecs.transpose * eigenvecs = 1)
    (hEig : handleNaNFallback hasNaN corr =
      eigenvecs * Matrix.diagonal eigenvals * eigenvecs.transpose)
    (hFloor : ∀ i, eigenvalueFloor ≤ eigenvals i)
    (hDiag : ∀ i, handleNaNFallback hasNaN corr i i = 1)
    (hBound : ∀ i j, -1 ≤ handleNaNFallback hasNaN corr i j ∧
      handleNaNFallback hasNaN corr i j ≤ 1) :
    (calculateCorrelationMatrix hasNaN corr eigenvecs eigenvals).transpose =
      calculateCorrelationMatrix hasNaN corr eigenvecs eigenvals ∧
    (∀ i, calculateCorrelationMatrix hasNaN corr eigenvecs eigenvals i i = 1) ∧
    (∀ i j, -1 ≤ calculateCorrelationMatrix hasNaN corr eigenvecs eigenvals i j ∧
      calculateCorrelationMatrix hasNaN corr eigenvecs eigenvals i j ≤ 1) := by
  have hclip : (fun i => max (eigenvals i) eigenvalueFloor) = eigenvals := by
    funext i
    exact max_eq_left (hFloor i)
  have hsame : calculateCorrelationMatrix hasNaN corr eigenvecs eigenvals =
      handleNaNFallback hasNaN corr := by
    unfold calculateCorrelationMatrix makePositiveSemidefinite
    rw [hclip, ← hEig]
  refine ⟨makePositiveSemidefinite_transpose eigenvecs eigenvals, ?_, ?_⟩
  · intro i
    rw [hsame]
    exact hDiag i
  · intro i j
    rw [hsame]
    exact hBound i j

/-- Concrete 1x1 identity instance used to instantiate the amended C5. -/
def exampleCorrId : Matrix (Fin 1) (Fin 1) ℚ := 1

def exampleEigenvalsOne : Fin 1 → ℚ := fun _ => 1

theorem c5_witness :
    calculateCorrelationMatrix false exampleCorrId exampleEigenvecsOne
      exampleEigenvalsOne 0 0 = 1 :=
  (c5_symmetric_and_preserved_when_no_clipping false exampleCorrId
    exampleEigenvecsOne exampleEigenvalsOne
    (by simp [exampleEigenvecsOne])
    (by
      unfold handleNaNFallback exampleCorrId exampleEigenvecsOne exampleEigenvalsOne
      simp [Matrix.diagonal_one])
    (fun i => by norm_num [exampleEigenvalsOne, eigenvalueFloor])
    (fun i => by simp [handleNaNFallback, exampleCorrId])
    (fun i j => by
      constructor <;>
        simp [handleNaNFallback, exampleCorrId, Matrix.one_apply] <;>
        split <;> norm_num)).2.1 0

/-- The 4x4 orthogonal Hadamard-type matrix whose columns are the exact
eigenvectors of the all-ones correlation matrix. -/
def hadamardEigenvecs : Matrix (Fin 4) (Fin 4) ℚ :=
  !![1/2, 1/2, 1/2, 1/2;
     1/2, 1/2, -1/2, -1/2;
     1/2, -1/2, 1/2, -1/2;
     1/2, -1/2, -1/2, 1/2]

/-- The all-ones 4x4 matrix: the exact Pearson correlation matrix of
four perfectly correlated assets (a realizable input), with eigenvalues
4, 0, 0, 0. -/
def allOnesCorr : Matrix (Fin 4) (Fin 4) ℚ := Matrix.of (fun _ _ => 1)

def hadamardEigenvals : Fin 4 → ℚ := ![4, 0, 0, 0]

/-- C5 counterexample: the all-ones correlation matrix of four
perfectly correlated assets is symmetric with unit diagonal and entries
in [-1, 1], and the Hadamard eigenvector matrix is an exact orthogonal
eigendecomposition of it; yet after the unconditional PSD repair the
returned matrix has diagonal entry `1 + 3/400000000 > 1` — the claimed
unit diagonal (and the entry bound) is violated by the returned
`CorrelationMatrix`. -/
theorem c5_counterexample :
    hadamardEigenvecs.transpose * hadamardEigenvecs = 1 ∧
    handleNaNFallback false allOnesCorr =
      hadamardEigenvecs * Matrix.diagonal hadamardEigenvals *
        hadamardEigenvecs.transpose ∧
    (∀ i, allOnesCorr i i = 1) ∧
    (∀ i j, -1 ≤ allOnesCorr i j ∧ allOnesCorr i j ≤ 1) ∧
    calculateCorrelationMatrix false allOnesCorr hadamardEigenvecs
      hadamardEigenvals 0 0 = 1 + 3 / 400000000 ∧
    (1 + 3 / 400000000 : ℚ) ≠ 1 := by
  refine ⟨?_, ?_, fun i => rfl, fun i j => by norm_num [allOnesCorr], ?_, by norm_num⟩
  · ext i j
    fin_cases i <;> fin_cases j <;>
      simp [hadamardEigenvecs, Matrix.mul_apply, Matrix.transpose_apply,
        Fin.sum_univ_four, Matrix.cons_val_zero, Matrix.cons_val_one,
        Matrix.cons_val_two, Matrix.cons_val_three, Matrix.vecHead, Matrix.vecTail,
        Matrix.one_apply] <;>
      norm_num
  · ext i j
    fin_cases i <;> fin_cases j <;>
      simp [handleNaNFallback, allOnesCorr, hadamardEigenvecs, hadamardEigenvals,
        Matrix.mul_apply, Matrix.transpose_apply, Matrix.mul_diagonal,
        Matrix.vecMul_diagonal, Matrix.vecMul, Matrix.dotProduct,
        Fin.sum_univ_four, Matrix.cons_val_zero, Matrix.cons_val_one,
        Matrix.cons_val_two, Matrix.cons_val_three, Matrix.vecHead, Matrix.vecTail,
        Matrix.diagonal_apply] <;>
      norm_num
  · show makePositiveSemidefinite hadamardEigenvecs hadamardEigenvals 0 0 =
      1 + 3 / 400000000
    rw [makePositiveSemidefinite_entry, Fin.sum_univ_four]
    simp only [hadamardEigenvecs, hadamardEigenvals, eigenvalueFloor,
      Matrix.cons_val_zero, Matrix.cons_val_one, Matrix.cons_val_two,
      Matrix.cons_val_three, Matrix.vecHead, Matrix.vecTail, Matrix.cons_val']
    norm_num

/-- Statistics computed inside the try-block of
`calculate_asset_parameters` for one instrument (mean/std of
log-returns, skew, kurtosis, Sharpe, number of returns).  These involve
`np.log`, so the computation is modelled as an abstract function whose
`none` result stands for a numerical exception escaping the block. -/
structure EstimationStats where
  dailyMeanReturn : ℝ
  dailyVolatility : ℝ
  sharpe : ℝ
  skewness : ℝ
  kurtosis : ℝ
  numReturns : ℕ

/-- Embedding of `_get_default_parameters`: 8 percent annual return and
16 percent annual volatility scaled to daily units, drift adjusted by
half the variance, Sharpe 0.5, skewness -0.1, kurtosis 3.0, and a
recorded lookback of 0 days. -/
noncomputable def defaultParameters (ticker : String) (currentPrice : ℝ) :
    AssetParameters :=
  ⟨ticker, currentPrice, 8 / 100 / 252, 16 / 100 / Real.sqrt 252,
    8 / 100 / 252 - (16 / 100 / Real.sqrt 252) ^ 2 / 2, 1 / 2, -(1 / 10), 3, 0⟩

/-- Embedding of `current_prices.get(ticker, price_series.iloc[-1])`:
`none` models the IndexError raised by `iloc[-1]` on an empty cleaned
series (caught by the surrounding handler). -/
def resolveCurrentPrice (currentPrices : String → Option ℝ) (ticker : String)
    (cleaned : List ℝ) : Option ℝ :=
  match currentPrices ticker with
  | some p => some p
  | none => cleaned.getLast?

/-- Embedding of the per-instrument loop body of
`calculate_asset_parameters`: drop NaN values, fall back to
`_get_default_parameters` when the cleaned history is shorter than
`min_history_days` or when any step of the estimation raises (the
`except` handler falls back with `current_prices.get(ticker, 100.0)`),
and otherwise build the parameters from the instrument's own
statistics, with `drift = mean - volatility^2 / 2`. -/
noncomputable def processInstrument (est : List ℝ → Option EstimationStats)
    (currentPrices : String → Option ℝ) (minHistoryDays : ℕ)
    (ticker : String) (series : List (Option ℝ)) : AssetParameters :=
  let cleaned := series.filterMap id
  if cleaned.length < minHistoryDays then
    match resolveCurrentPrice currentPrices ticker cleaned with
    | some p => defaultParameters ticker p
    | none => defaultParameters ticker ((currentPrices ticker).getD 100)
  else
    match est cleaned, resolveCurrentPrice currentPrices ticker cleaned with
    | some st, some p =>
      ⟨ticker, p, st.dailyMeanReturn, st.dailyVolatility,
        st.dailyMeanReturn - st.dailyVolatility ^ 2 / 2,
        st.sharpe, st.skewness, st.kurtosis, st.numReturns⟩
    | _, _ => defaultParameters ticker ((currentPrices ticker).getD 100)

/-- Embedding of `calculate_asset_parameters`: every instrument of the
batch is processed independently and contributes exactly one entry. -/
noncomputable def calculateAssetParameters (est : List ℝ → Option EstimationStats)
    (currentPrices : String → Option ℝ) (minHistoryDays : ℕ)
    (batch : List (String × List (Option ℝ))) : List (String × AssetParameters) :=
  batch.map (fun p => (p.1, processInstrument est currentPrices minHistoryDays p.1 p.2))

/-- C6 (confirmed): (a) the batch result always has one entry per
instrument — no single failure aborts the batch; (b) an instrument with
insufficient cleaned history, or whose estimation raises, receives
`_get_default_parameters`; (c) those defaults are the fixed market
assumptions (8 percent annual return and 16 percent annual volatility
scaled to daily units) with observation count recorded as 0; (d) every
other instrument's parameters are built from its own statistics. -/
theorem c6_default_fallback_and_batch_isolation
    (est : List ℝ → Option EstimationStats) (currentPrices : String → Option ℝ)
    (minHistoryDays : ℕ) (batch : List (String × List (Option ℝ)))
    (ticker : String) (series : List (Option ℝ)) :
    (calculateAssetParameters est currentPrices minHistoryDays batch).length =
      batch.length ∧
    ((series.filterMap id).length < minHistoryDays ∨ est (series.filterMap id) = none →
      ∃ p, processInstrument est currentPrices minHistoryDays ticker series =
        defaultParameters ticker p) ∧
    (∀ t p, (defaultParameters t p).dailyMeanReturn = 8 / 100 / 252 ∧
      (defaultParameters t p).dailyVolatility = 16 / 100 / Real.sqrt 252 ∧
      (defaultParameters t p).lookbackDays = 0) ∧
    (∀ st p, ¬ (series.filterMap id).length < minHistoryDays →
      est (series.filterMap id) = some st →
      resolveCurrentPrice currentPrices ticker (series.filterMap id) = some p →
      processInstrument est currentPrices minHistoryDays ticker series =
        ⟨ticker, p, st.dailyMeanReturn, st.dailyVolatility,
          st.dailyMeanReturn - st.dailyVolatility ^ 2 / 2,
          st.sharpe, st.skewness, st.kurtosis, st.numReturns⟩) := by
  refine ⟨by simp [calculateAssetParameters], ?_, fun t p => ⟨rfl, rfl, rfl⟩, ?_⟩
  · intro h
    unfold processInstrument
    by_cases hshort : (series.filterMap id).length < minHistoryDays
    · rw [if_pos hshort]
      cases hres : resolveCurrentPrice currentPrices ticker (series.filterMap id) with
      | none => exact ⟨(currentPrices ticker).getD 100, rfl⟩
      | some p => exact ⟨p, rfl⟩
    · have hest : est (series.filterMap id) = none := h.resolve_left hshort
      rw [if_neg hshort, hest]
      exact ⟨(currentPrices ticker).getD 100, rfl⟩
  · intro st p hshort hest hres
    unfold processInstrument
    rw [if_neg hshort, hest, hres]

theorem c6_witness :
    (calculateAssetParameters (fun _ => none) (fun _ => none) 5
      [("AAPL", [some 1, some 2]), ("MSFT", [])]).length = 2 ∧
    ∃ p, processInstrument (fun _ => none) (fun _ => none) 5 "AAPL"
        [some 1, some 2] = defaultParameters "AAPL" p ∧
      (defaultParameters "AAPL" p).lookbackDays = 0 := by
  have h := c6_default_fallback_and_batch_isolation (fun _ => none) (fun _ => none) 5
    [("AAPL", [some 1, some 2]), ("MSFT", [])] "AAPL" [some 1, some 2]
  refine ⟨h.1.trans rfl, ?_⟩
  obtain ⟨p, hp⟩ := h.2.1 (Or.inl (by norm_num [List.filterMap]))
  exact ⟨p, hp, (h.2.2.1 "AAPL" p).2.2⟩

/-- Model of an IEEE float statistic: `none` stands for a non-finite
value (NaN or infinity) produced by a zero denominator or propagated
from an earlier non-finite operand. -/
abbrev FQ := Option ℚ

def fqAdd : FQ → FQ → FQ := fun a b =>
  match a, b with
  | some x, some y => some (x + y)
  | _, _ => none

def fqSub : FQ → FQ → FQ := fun a b =>
  match a, b with
  | some x, some y => some (x - y)
  | _, _ => none

def fqMul : FQ → FQ → FQ := fun a b =>
  match a, b with
  | some x, some y => some (x * y)
  | _, _ => none

/-- Division, the source of non-finite values: a zero denominator
yields `none`. -/
def fqDiv : FQ → FQ → FQ := fun a b =>
  match a, b with
  | some x, some y => if y = 0 then none else some (x / y)
  | _, _ => none

def fqAbs : FQ → FQ := fun a => a.map (fun x => |x|)

/-- Comparison as numpy evaluates it on floats: any comparison against
NaN is false. -/
def fqLt : FQ → FQ → Bool := fun a b =>
  match a, b with
  | some x, some y => decide (x < y)
  | _, _ => false

def fqLe : FQ → FQ → Bool := fun a b =>
  match a, b with
  | some x, some y => decide (x ≤ y)
  | _, _ => false

/-- `np.maximum` and `np.minimum` propagate NaN. -/
def fqMax : FQ → FQ → FQ := fun a b =>
  match a, b with
  | some x, some y => some (max x y)
  | _, _ => none

def fqMin : FQ → FQ → FQ := fun a b =>
  match a, b with
  | some x, some y => some (min x y)
  | _, _ => none

def fqSum : List FQ → FQ := fun xs => xs.foldr fqAdd (some 0)

/-- `np.mean`: the empty list gives NaN (division by a zero length). -/
def fqMean (xs : List FQ) : FQ := fqDiv (fqSum xs) (some (xs.length : ℚ))

/-- `np.min` over an array: NaN propagates, and the empty array has no
finite minimum. -/
def fqMinimum : List FQ → FQ
  | [] => none
  | x :: xs => xs.foldl fqMin x

def fqMaximum : List FQ → FQ
  | [] => none
  | x :: xs => xs.foldl fqMax x

/-- All-finite extraction: `some l` exactly when no element is
non-finite. -/
def fqSeq : List FQ → Option (List ℚ)
  | [] => some []
  | none :: _ => none
  | some x :: xs => (fqSeq xs).map (fun l => x :: l)

def meanQ (l : List ℚ) : ℚ := l.sum / l.length

/-- Central moment of order `k`, the building block of `np.std`,
`scipy.stats.skew` and `scipy.stats.kurtosis` (population moments, the
default `bias=True`). -/
def centralMoment (l : List ℚ) (k : ℕ) : ℚ :=
  meanQ (l.map (fun x => (x - meanQ l) ^ k))

/-- `np.std`: the square root of the population variance.  The square
root itself is irrational, so it is taken through the explicit
parameter `sqrtQ`; only its application, never its value, matters to
the finiteness and guard claims. -/
def fqVariance (xs : List FQ) : FQ :=
  fqMean (xs.map (fun x => fqMul (fqSub x (fqMean xs)) (fqSub x (fqMean xs))))

def fqStd (sqrtQ : ℚ → ℚ) (xs : List FQ) : FQ := (fqVariance xs).map sqrtQ

/-- `np.median` equals the 50th percentile and propagates NaN. -/
def fqMedian (xs : List FQ) (percentile : List ℚ → ℚ) : FQ :=
  if xs.isEmpty then none else (fqSeq xs).map percentile

/-- Embedding of `np.percentile(values, q)` with the default linear
interpolation: sort, take `pos = q * (n - 1) / 100`, and interpolate
between the neighbouring order statistics. -/
def percentileQ (xs : List ℚ) (q : ℚ) : ℚ :=
  let sorted := List.insertionSort (fun a b => a ≤ b) xs
  let pos : ℚ := q * ((sorted.length : ℚ) - 1) / 100
  let lower := (Int.floor pos).toNat
  let upper := (Int.ceil pos).toNat
  let frac : ℚ := pos - (lower : ℚ)
  sorted.getD lower 0 * (1 - frac) + sorted.getD upper 0 * frac

/-- Embedding of `np.diff(paths) / paths[:, :-1]` on one row: the
day-on-day portfolio returns, non-finite where the denominator value is
zero. -/
def pairwiseReturns (row : List ℚ) : List FQ :=
  List.zipWith (fun prev next => fqDiv (some (next - prev)) (some prev)) row row.tail

/-- `np.cumprod` with NaN propagation. -/
def fqCumprodAux : FQ → List FQ → List FQ
  | _, [] => []
  | acc, x :: xs => fqMul acc x :: fqCumprodAux (fqMul acc x) xs

/-- `np.maximum.accumulate` starting from an accumulator. -/
def fqRunningMaxAux : FQ → List FQ → List FQ
  | _, [] => []
  | acc, x :: xs => fqMax acc x :: fqRunningMaxAux (fqMax acc x) xs

def fqRunningMax : List FQ → List FQ
  | [] => []
  | x :: xs => x :: fqRunningMaxAux x xs

/-- Embedding of the per-row maximum-drawdown pipeline of
`_calculate_simulation_statistics`: daily returns, cumulative product
of `1 + r` with a leading 1 (`np.column_stack([ones, cumprod])`), the
running maximum, and `(cumulative - running_max) / running_max`. -/
def drawdownRow (row : List ℚ) : List FQ :=
  let cumulative := some 1 :: fqCumprodAux (some 1)
    ((pairwiseReturns row).map (fun r => fqAdd (some 1) r))
  List.zipWith (fun c m => fqDiv (fqSub c m) m) cumulative (fqRunningMax cumulative)

/-- Embedding of the dictionary built by
`_calculate_simulation_statistics`.  Fields that numpy can only ever
produce as finite floats (percentiles of the finite input values) are
plain rationals; every field whose computation divides is `FQ`. -/
structure StatisticsBundle where
  meanFinalValue : FQ
  medianFinalValue : ℚ
  stdFinalValue : FQ
  meanReturn : FQ
  medianReturn : FQ
  stdReturn : FQ
  minReturn : FQ
  maxReturn : FQ
  percentiles : List (ℚ × ℚ)
  timeSeriesPercentiles : List (ℚ × List ℚ)
  sharpe : FQ
  sortino : FQ
  calmar : FQ
  var95 : ℚ
  var99 : ℚ
  expectedShortfall95 : FQ
  expectedShortfall99 : FQ
  probPositive : FQ
  probLoss5 : FQ
  probLoss10 : FQ
  probGain10 : FQ
  probGain20 : FQ
  skewnessStat : FQ
  kurtosisStat : FQ
  maximumDrawdown : FQ
  downsideDeviation : FQ

/-- `scipy.stats.skew`: `m3 / m2 ** 1.5`, non-finite exactly when `m2`
is zero (or an operand already is); the irrational power routes through
`sqrtQ` (`m2 ** 1.5 = m2 * sqrt m2`). -/
def fqSkew (sqrtQ : ℚ → ℚ) (xs : List FQ) : FQ :=
  match fqSeq xs with
  | none => none
  | some l =>
    if l.length = 0 then none
    else if centralMoment l 2 = 0 then none
    else some (centralMoment l 3 / (centralMoment l 2 * sqrtQ (centralMoment l 2)))

/-- `scipy.stats.kurtosis` (Fisher): `m4 / m2 ** 2 - 3`, non-finite
exactly when `m2` is zero (or an operand already is). -/
def fqKurtosis (xs : List FQ) : FQ :=
  match fqSeq xs with
  | none => none
  | some l =>
    if l.length = 0 then none
    else if centralMoment l 2 = 0 then none
    else some (centralMoment l 4 / (centralMoment l 2 * centralMoment l 2) - 3)

/-- The final portfolio values `portfolio_paths[:, -1]`. -/
def statFinalValues (portfolioPaths : List (List ℚ)) : List ℚ :=
  portfolioPaths.map (fun row => row.getLastD 0)

/-- `returns = (final_values - initial_value) / initial_value`:
non-finite when the initial value is zero. -/
def statReturns (portfolioPaths : List (List ℚ)) (initialValue : ℚ) : List FQ :=
  (statFinalValues portfolioPaths).map
    (fun f => fqDiv (some (f - initialValue)) (some initialValue))

/-- `annualized_rf_rate = (1 + daily_rf_rate) ** time_horizon_days - 1`
with `daily_rf_rate = (1 + risk_free_rate) ** (1/252) - 1`; the
fractional power is the explicit irrational primitive `powQ`. -/
def statAnnualizedRf (powQ : ℚ → ℚ → ℚ) (riskFreeRate : ℚ)
    (timeHorizonDays : ℕ) : ℚ :=
  (1 + (powQ (1 + riskFreeRate) (1 / 252) - 1)) ^ timeHorizonDays - 1

def statExcessReturns (powQ : ℚ → ℚ → ℚ) (portfolioPaths : List (List ℚ))
    (initialValue riskFreeRate : ℚ) (timeHorizonDays : ℕ) : List FQ :=
  (statReturns portfolioPaths initialValue).map
    (fun r => fqSub r (some (statAnnualizedRf powQ riskFreeRate timeHorizonDays)))

def statStdReturns (sqrtQ : ℚ → ℚ) (portfolioPaths : List (List ℚ))
    (initialValue : ℚ) : FQ :=
  fqStd sqrtQ (statReturns portfolioPaths initialValue)

/-- `np.percentile(final_values, q)`: the VaR fields use q = 5 and
q = 1. -/
def statVar (portfolioPaths : List (List ℚ)) (q : ℚ) : ℚ :=
  percentileQ (statFinalValues portfolioPaths) q

/-- Expected Shortfall: `np.mean(final_values[final_values <= var])`. -/
def statES (portfolioPaths : List (List ℚ)) (q : ℚ) : FQ :=
  fqMean (((statFinalValues portfolioPaths).filter
    (fun x => decide (x ≤ statVar portfolioPaths q))).map some)

/-- `max_drawdown = np.min(drawdowns)` over the whole matrix. -/
def statMaxDrawdown (portfolioPaths : List (List ℚ)) : FQ :=
  fqMinimum (portfolioPaths.map drawdownRow).flatten

/-- `downside_returns = returns[returns < 0]` (NaN compares false, so
it is excluded, as numpy does). -/
def statDownsideReturns (portfolioPaths : List (List ℚ)) (initialValue : ℚ) :
    List FQ :=
  (statReturns portfolioPaths initialValue).filter (fun r => fqLt r (some 0))

/-- `downside_deviation = np.std(downside_returns) if len > 0 else 0`. -/
def statDownsideDeviation (sqrtQ : ℚ → ℚ) (portfolioPaths : List (List ℚ))
    (initialValue : ℚ) : FQ :=
  if (statDownsideReturns portfolioPaths initialValue).length > 0
  then fqStd sqrtQ (statDownsideReturns portfolioPaths initialValue)
  else some 0

/-- `sharpe_ratio = np.mean(excess) / np.std(returns) if np.std(returns) > 0 else 0`. -/
def statSharpe (sqrtQ : ℚ → ℚ) (powQ : ℚ → ℚ → ℚ)
    (portfolioPaths : List (List ℚ)) (initialValue riskFreeRate : ℚ)
    (timeHorizonDays : ℕ) : FQ :=
  if fqLt (some 0) (statStdReturns sqrtQ portfolioPaths initialValue)
  then fqDiv (fqMean (statExcessReturns powQ portfolioPaths initialValue
      riskFreeRate timeHorizonDays))
    (statStdReturns sqrtQ portfolioPaths initialValue)
  else some 0

/-- `sortino_ratio = np.mean(excess) / downside_deviation if downside_deviation > 0 else 0`. -/
def statSortino (sqrtQ : ℚ → ℚ) (powQ : ℚ → ℚ → ℚ)
    (portfolioPaths : List (List ℚ)) (initialValue riskFreeRate : ℚ)
    (timeHorizonDays : ℕ) : FQ :=
  if fqLt (some 0) (statDownsideDeviation sqrtQ portfolioPaths initialValue)
  then fqDiv (fqMean (statExcessReturns powQ portfolioPaths initialValue
      riskFreeRate timeHorizonDays))
    (statDownsideDeviation sqrtQ portfolioPaths initialValue)
  else some 0

/-- `calmar_ratio = np.mean(returns) / abs(max_drawdown) if max_drawdown < 0 else 0`. -/
def statCalmar (portfolioPaths : List (List ℚ)) (initialValue : ℚ) : FQ :=
  if fqLt (statMaxDrawdown portfolioPaths) (some 0)
  then fqDiv (fqMean (statReturns portfolioPaths initialValue))
    (fqAbs (statMaxDrawdown portfolioPaths))
  else some 0

/-- `np.mean(bool_array)`: the fraction of entries passing the test. -/
def statProb (returns : List FQ) (test : FQ → Bool) : FQ :=
  fqDiv (some ((returns.countP test : ℕ) : ℚ)) (some ((returns.length : ℕ) : ℚ))

def statTimeSeriesPercentiles (portfolioPaths : List (List ℚ)) :
    List (ℚ × List ℚ) :=
  [5 / 100, 25 / 100, 50 / 100, 75 / 100, 95 / 100].map (fun c =>
    (c, (List.range (portfolioPaths.headD []).length).map (fun d =>
      percentileQ (portfolioPaths.map (fun row => row.getD d 0)) (c * 100))))

/-- Embedding of `_calculate_simulation_statistics`.  `sqrtQ` and
`powQ` stand for the irrational-valued primitives (the square root
inside `np.std` and `m2 ** 1.5`, and the fractional power in the daily
risk-free rate); the guards and the finiteness of every statistic never
depend on their values. -/
def calculateSimulationStatistics (sqrtQ : ℚ → ℚ) (powQ : ℚ → ℚ → ℚ)
    (portfolioPaths : List (List ℚ)) (initialValue : ℚ) (riskFreeRate : ℚ)
    (timeHorizonDays : ℕ) (confidenceLevels : List ℚ) : StatisticsBundle :=
  ⟨fqMean ((statFinalValues portfolioPaths).map some),
   percentileQ (statFinalValues portfolioPaths) 50,
   fqStd sqrtQ ((statFinalValues portfolioPaths).map some),
   fqMean (statReturns portfolioPaths initialValue),
   fqMedian (statReturns portfolioPaths initialValue) (fun l => percentileQ l 50),
   statStdReturns sqrtQ portfolioPaths initialValue,
   fqMinimum (statReturns portfolioPaths initialValue),
   fqMaximum (statReturns portfolioPaths initialValue),
   confidenceLevels.map (fun c =>
     (c, percentileQ (statFinalValues portfolioPaths) (c * 100))),
   statTimeSeriesPercentiles portfolioPaths,
   statSharpe sqrtQ powQ portfolioPaths initialValue riskFreeRate timeHorizonDays,
   statSortino sqrtQ powQ portfolioPaths initialValue riskFreeRate timeHorizonDays,
   statCalmar portfolioPaths initialValue,
   statVar portfolioPaths 5,
   statVar portfolioPaths 1,
   statES portfolioPaths 5,
   statES portfolioPaths 1,
   statProb (statReturns portfolioPaths initialValue) (fun r => fqLt (some 0) r),
   statProb (statReturns portfolioPaths initialValue)
     (fun r => fqLe r (some (-(5 / 100)))),
   statProb (statReturns portfolioPaths initialValue)
     (fun r => fqLe r (some (-(10 / 100)))),
   statProb (statReturns portfolioPaths initialValue)
     (fun r => fqLe (some (10 / 100)) r),
   statProb (statReturns portfolioPaths initialValue)
     (fun r => fqLe (some (20 / 100)) r),
   fqSkew sqrtQ (statReturns portfolioPaths initialValue),
   fqKurtosis (statReturns portfolioPaths initialValue),
   statMaxDrawdown portfolioPaths,
   statDownsideDeviation sqrtQ portfolioPaths initialValue⟩

theorem fqSeq_map_some (l : List ℚ) : fqSeq (l.map some) = some l := by
  induction l with
  | nil => rfl
  | cons x xs ih => simp [fqSeq, ih]

theorem fqSeq_length {xs : List FQ} {l : List ℚ} (h : fqSeq xs = some l) :
    xs.length = l.length := by
  induction xs generalizing l with
  | nil =>
    simp only [fqSeq, Option.some.injEq] at h
    subst h; rfl
  | cons x rest ih =>
    cases x with
    | none => simp [fqSeq] at h
    | some q =>
      simp only [fqSeq, Option.map_eq_some'] at h
      obtain ⟨t, ht, rfl⟩ := h
      simp [ih ht]

theorem fqSum_of_seq {xs : List FQ} {l : List ℚ} (h : fqSeq xs = some l) :
    fqSum xs = some l.sum := by
  induction xs generalizing l with
  | nil =>
    simp only [fqSeq, Option.some.injEq] at h
    subst h; rfl
  | cons x rest ih =>
    cases x with
    | none => simp [fqSeq] at h
    | some q =>
      simp only [fqSeq, Option.map_eq_some'] at h
      obtain ⟨t, ht, rfl⟩ := h
      have hrest := ih ht
      simp only [fqSum, List.foldr_cons] at hrest ⊢
      rw [hrest, fqAdd, List.sum_cons]

theorem fqMean_of_seq {xs : List FQ} {l : List ℚ} (h : fqSeq xs = some l)
    (hne : xs ≠ []) : fqMean xs = some (meanQ l) := by
  have hlen := fqSeq_length h
  have hl : l.length ≠ 0 := by
    intro h0
    exact hne (List.eq_nil_of_length_eq_zero (hlen.trans h0))
  rw [fqMean, fqSum_of_seq h, fqDiv]
  simp only [hlen]
  rw [if_neg (by exact_mod_cast hl)]
  rfl

theorem fqSeq_map {F : FQ → FQ} {f : ℚ → ℚ} (hF : ∀ x, F (some x) = some (f x))
    {xs : List FQ} {l : List ℚ} (h : fqSeq xs = some l) :
    fqSeq (xs.map F) = some (l.map f) := by
  induction xs generalizing l with
  | nil =>
    simp only [fqSeq, Option.some.injEq] at h
    subst h; rfl
  | cons x rest ih =>
    cases x with
    | none => simp [fqSeq] at h
    | some q =>
      simp only [fqSeq, Option.map_eq_some'] at h
      obtain ⟨t, ht, rfl⟩ := h
      simp [List.map_cons, hF, fqSeq, ih ht]

theorem fqSeq_isSome {xs : List FQ} {l : List ℚ} (h : fqSeq xs = some l) :
    ∀ x ∈ xs, x.isSome = true := by
  induction xs generalizing l with
  | nil => simp
  | cons x rest ih =>
    cases x with
    | none => simp [fqSeq] at h
    | some q =>
      simp only [fqSeq, Option.map_eq_some'] at h
      obtain ⟨t, ht, rfl⟩ := h
      intro y hy
      rcases List.mem_cons.mp hy with hy | hy
      · simp [hy]
      · exact ih ht y hy

theorem fqSeq_of_all_isSome {xs : List FQ} (h : ∀ x ∈ xs, x.isSome = true) :
    ∃ l, fqSeq xs = some l := by
  induction xs with
  | nil => exact ⟨[], rfl⟩
  | cons x rest ih =>
    obtain ⟨t, ht⟩ := ih (fun y hy => h y (List.mem_cons_of_mem x hy))
    cases x with
    | none => simp at h
    | some q => exact ⟨q :: t, by simp [fqSeq, ht]⟩

theorem fqVariance_of_seq {xs : List FQ} {l : List ℚ} (h : fqSeq xs = some l)
    (hne : xs ≠ []) : fqVariance xs = some (centralMoment l 2) := by
  have hmu := fqMean_of_seq h hne
  have hmap : fqSeq (xs.map (fun x => fqMul (fqSub x (fqMean xs)) (fqSub x (fqMean xs)))) =
      some (l.map (fun x => (x - meanQ l) * (x - meanQ l))) := by
    refine fqSeq_map (fun x => ?_) h
    rw [hmu]
    rfl
  have hne2 : xs.map (fun x => fqMul (fqSub x (fqMean xs)) (fqSub x (fqMean xs))) ≠ [] := by
    simpa using hne
  rw [fqVariance, fqMean_of_seq hmap hne2]
  congr 1
  rw [centralMoment]
  congr 1
  exact List.map_congr_left (fun x _ => by ring)

theorem centralMoment_two_nonneg (l : List ℚ) : 0 ≤ centralMoment l 2 := by
  rw [centralMoment, meanQ]
  refine div_nonneg (List.sum_nonneg ?_) (by positivity)
  intro x hx
  obtain ⟨y, hy, rfl⟩ := List.mem_map.mp hx
  positivity

theorem fqMinimum_of_seq {xs : List FQ} {l : List ℚ} (h : fqSeq xs = some l)
    (hne : xs ≠ []) : ∃ q, fqMinimum xs = some q := by
  have hall := fqSeq_isSome h
  cases xs with
  | nil => exact absurd rfl hne
  | cons x rest =>
    obtain ⟨a, ha⟩ := Option.isSome_iff_exists.mp (hall x (List.mem_cons_self x rest))
    subst ha
    have haux : ∀ (ys : List FQ) (a : ℚ), (∀ y ∈ ys, y.isSome = true) →
        ∃ q, ys.foldl fqMin (some a) = some q := by
      intro ys
      induction ys with
      | nil => exact fun a _ => ⟨a, rfl⟩
      | cons y t ih =>
        intro a hy
        obtain ⟨b, hb⟩ := Option.isSome_iff_exists.mp (hy y (List.mem_cons_self y t))
        subst hb
        obtain ⟨q, hq⟩ := ih (min a b) (fun z hz => hy z (List.mem_cons_of_mem _ hz))
        exact ⟨q, by simpa [fqMin] using hq⟩
    exact haux rest a (fun y hy => hall y (List.mem_cons_of_mem _ hy))

theorem fqMaximum_of_seq {xs : List FQ} {l : List ℚ} (h : fqSeq xs = some l)
    (hne : xs ≠ []) : ∃ q, fqMaximum xs = some q := by
  have hall := fqSeq_isSome h
  cases xs with
  | nil => exact absurd rfl hne
  | cons x rest =>
    obtain ⟨a, ha⟩ := Option.isSome_iff_exists.mp (hall x (List.mem_cons_self x rest))
    subst ha
    have haux : ∀ (ys : List FQ) (a : ℚ), (∀ y ∈ ys, y.isSome = true) →
        ∃ q, ys.foldl fqMax (some a) = some q := by
      intro ys
      induction ys with
      | nil => exact fun a _ => ⟨a, rfl⟩
      | cons y t ih =>
        intro a hy
        obtain ⟨b, hb⟩ := Option.isSome_iff_exists.mp (hy y (List.mem_cons_self y t))
        subst hb
        obtain ⟨q, hq⟩ := ih (max a b) (fun z hz => hy z (List.mem_cons_of_mem _ hz))
        exact ⟨q, by simpa [fqMax] using hq⟩
    exact haux rest a (fun y hy => hall y (List.mem_cons_of_mem _ hy))

theorem sorted_head_le_interp (s : List ℚ) (hsorted : s.Sorted (fun a b => a ≤ b))
    (hsne : s ≠ []) (lo hi : ℕ) (hlo : lo < s.length) (hhi : hi < s.length)
    (frac : ℚ) (h0 : 0 ≤ frac) (h1 : frac ≤ 1) :
    ∃ x0 ∈ s, x0 ≤ s.getD lo 0 * (1 - frac) + s.getD hi 0 * frac := by
  cases s with
  | nil => exact absurd rfl hsne
  | cons a t =>
    refine ⟨a, List.mem_cons_self a t, ?_⟩
    have hmem : ∀ i (hi2 : i < (a :: t).length), a ≤ (a :: t).getD i 0 := by
      intro i hlt
      rw [List.getD_eq_getElem _ _ hlt]
      rcases List.mem_cons.mp (List.getElem_mem hlt) with h | h
      · rw [h]
      · exact List.rel_of_sorted_cons hsorted _ h
    calc a = a * (1 - frac) + a * frac := by ring
      _ ≤ (a :: t).getD lo 0 * (1 - frac) + (a :: t).getD hi 0 * frac :=
        add_le_add (mul_le_mul_of_nonneg_right (hmem lo hlo) (by linarith))
          (mul_le_mul_of_nonneg_right (hmem hi hhi) h0)

theorem head_le_percentileQ (xs : List ℚ) (q : ℚ) (hne : xs ≠ [])
    (hq0 : 0 ≤ q) (hq1 : q ≤ 100) :
    ∃ x0 ∈ xs, x0 ≤ percentileQ xs q := by
  have hperm := List.perm_insertionSort (fun a b => a ≤ b) xs
  have hsorted := List.sorted_insertionSort (fun a b => a ≤ b) xs
  have hsne : List.insertionSort (fun a b => a ≤ b) xs ≠ [] := by
    intro h0
    exact hne (List.eq_nil_of_length_eq_zero (hperm.length_eq.symm.trans (by rw [h0]; rfl)))
  simp only [percentileQ]
  set s := List.insertionSort (fun a b => a ≤ b) xs with hs
  set pos : ℚ := q * ((s.length : ℚ) - 1) / 100 with hposdef
  have hn1 : 1 ≤ s.length := List.length_pos.mpr hsne
  have hn1q : (1 : ℚ) ≤ (s.length : ℚ) := by exact_mod_cast hn1
  have hpos0 : 0 ≤ pos := by
    rw [hposdef]
    apply div_nonneg _ (by norm_num)
    apply mul_nonneg hq0
    linarith
  have hposle : pos ≤ (s.length : ℚ) - 1 := by
    rw [hposdef, div_le_iff (by norm_num : (0 : ℚ) < 100)]
    nlinarith
  have hfloor0 : 0 ≤ ⌊pos⌋ := Int.floor_nonneg.mpr hpos0
  have hlocast : ((Int.toNat ⌊pos⌋ : ℕ) : ℚ) = (⌊pos⌋ : ℚ) := by
    exact_mod_cast Int.toNat_of_nonneg hfloor0
  have hlo : Int.toNat ⌊pos⌋ < s.length := by
    have h2 : (⌊pos⌋ : ℚ) ≤ (s.length : ℚ) - 1 := le_trans (Int.floor_le pos) hposle
    have h3 : ⌊pos⌋ ≤ (s.length : ℤ) - 1 := by exact_mod_cast h2
    omega
  have hhi : Int.toNat ⌈pos⌉ < s.length := by
    have h2 : ⌈pos⌉ ≤ (s.length : ℤ) - 1 := by
      rw [Int.ceil_le]
      push_cast
      exact hposle
    omega
  have hfrac0 : 0 ≤ pos - ((Int.toNat ⌊pos⌋ : ℕ) : ℚ) := by
    rw [hlocast]
    exact sub_nonneg.mpr (Int.floor_le pos)
  have hfrac1 : pos - ((Int.toNat ⌊pos⌋ : ℕ) : ℚ) ≤ 1 := by
    rw [hlocast]
    have := Int.lt_floor_add_one pos
    linarith
  obtain ⟨x0, hx0mem, hx0le⟩ := sorted_head_le_interp s hsorted hsne
    (Int.toNat ⌊pos⌋) (Int.toNat ⌈pos⌉) hlo hhi
    (pos - ((Int.toNat ⌊pos⌋ : ℕ) : ℚ)) hfrac0 hfrac1
  exact ⟨x0, hperm.mem_iff.mp hx0mem, hx0le⟩

theorem list_sum_le_length_mul {l : List ℚ} {b : ℚ} (h : ∀ x ∈ l, x ≤ b) :
    l.sum ≤ (l.length : ℚ) * b := by
  have := List.sum_le_card_nsmul l b h
  simpa [nsmul_eq_mul] using this

theorem es_le_var (finals : List ℚ) (q : ℚ) (hne : finals ≠ [])
    (hq0 : 0 ≤ q) (hq1 : q ≤ 100) :
    ∃ e, fqMean ((finals.filter (fun x => decide (x ≤ percentileQ finals q))).map some) =
        some e ∧ e ≤ percentileQ finals q := by
  obtain ⟨x0, hmem, hle⟩ := head_le_percentileQ finals q hne hq0 hq1
  set v := percentileQ finals q with hv
  set tl := finals.filter (fun x => decide (x ≤ v)) with htl
  have hx0tl : x0 ∈ tl := List.mem_filter.mpr ⟨hmem, by simpa using hle⟩
  have htlne : tl ≠ [] := List.ne_nil_of_mem hx0tl
  have hlen0 : (0 : ℚ) < (tl.length : ℚ) := by
    exact_mod_cast List.length_pos.mpr htlne
  have hall : ∀ x ∈ tl, x ≤ v := fun x hx => by
    simpa using (List.mem_filter.mp hx).2
  refine ⟨tl.sum / tl.length, ?_, ?_⟩
  · rw [fqMean_of_seq (fqSeq_map_some tl) (by simpa using htlne)]
    rfl
  · rw [div_le_iff hlen0, mul_comm]
    exact list_sum_le_length_mul hall

/-- C8 (confirmed): for every nonempty simulation matrix, the Expected
Shortfall (the mean of final values at or below the VaR threshold) is
at most the VaR at the same level, for both the 95 percent level (VaR =
5th percentile of final value) and the 99 percent level (VaR = 1st
percentile), as computed by `_calculate_simulation_statistics`. -/
theorem c8_expected_shortfall_le_var (sqrtQ : ℚ → ℚ) (powQ : ℚ → ℚ → ℚ)
    (portfolioPaths : List (List ℚ)) (initialValue riskFreeRate : ℚ)
    (timeHorizonDays : ℕ) (confidenceLevels : List ℚ)
    (hne : portfolioPaths ≠ []) :
    (∃ e, (calculateSimulationStatistics sqrtQ powQ portfolioPaths initialValue
        riskFreeRate timeHorizonDays confidenceLevels).expectedShortfall95 = some e ∧
      e ≤ (calculateSimulationStatistics sqrtQ powQ portfolioPaths initialValue
        riskFreeRate timeHorizonDays confidenceLevels).var95) ∧
    (∃ e, (calculateSimulationStatistics sqrtQ powQ portfolioPaths initialValue
        riskFreeRate timeHorizonDays confidenceLevels).expectedShortfall99 = some e ∧
      e ≤ (calculateSimulationStatistics sqrtQ powQ portfolioPaths initialValue
        riskFreeRate timeHorizonDays confidenceLevels).var99) := by
  have hfne : statFinalValues portfolioPaths ≠ [] := by
    simpa [statFinalValues] using hne
  constructor
  · have h := es_le_var (statFinalValues portfolioPaths) 5 hfne
      (by norm_num) (by norm_num)
    simpa only [calculateSimulationStatistics, statES, statVar] using h
  · have h := es_le_var (statFinalValues portfolioPaths) 1 hfne
      (by norm_num) (by norm_num)
    simpa only [calculateSimulationStatistics, statES, statVar] using h

theorem c8_witness :
    ∃ e, (calculateSimulationStatistics (fun _ => 0) (fun _ _ => 0)
        [[100, 90], [100, 110]] 100 (2 / 100) 1 [5 / 100]).expectedShortfall95 = some e ∧
      e ≤ (calculateSimulationStatistics (fun _ => 0) (fun _ _ => 0)
        [[100, 90], [100, 110]] 100 (2 / 100) 1 [5 / 100]).var95 :=
  (c8_expected_shortfall_le_var (fun _ => 0) (fun _ _ => 0)
    [[100, 90], [100, 110]] 100 (2 / 100) 1 [5 / 100] (by simp)).1

theorem pairwiseReturns_isSome (row : List ℚ) (h : ∀ x ∈ row, x ≠ 0) :
    ∀ v ∈ pairwiseReturns row, v.isSome = true := by
  have haux : ∀ (xs ys : List ℚ), (∀ x ∈ xs, x ≠ 0) →
      ∀ v ∈ List.zipWith (fun prev next => fqDiv (some (next - prev)) (some prev)) xs ys,
        v.isSome = true := by
    intro xs
    induction xs with
    | nil => intro ys h2 v hv; simp at hv
    | cons a t ih =>
      intro ys h2 v hv
      cases ys with
      | nil => simp at hv
      | cons b u =>
        simp only [List.zipWith_cons_cons, List.mem_cons] at hv
        rcases hv with hv | hv
        · subst hv
          simp [fqDiv, h2 a (List.mem_cons_self a t)]
        · exact ih u (fun x hx => h2 x (List.mem_cons_of_mem a hx)) v hv
  exact fun v hv => haux row row.tail h v hv

theorem fqCumprodAux_isSome (xs : List FQ) :
    ∀ (acc : FQ), acc.isSome = true → (∀ x ∈ xs, x.isSome = true) →
    ∀ v ∈ fqCumprodAux acc xs, v.isSome = true := by
  induction xs with
  | nil => intro acc _ _ v hv; simp [fqCumprodAux] at hv
  | cons x t ih =>
    intro acc hacc hxs v hv
    obtain ⟨a, ha⟩ := Option.isSome_iff_exists.mp hacc
    obtain ⟨b, hb⟩ := Option.isSome_iff_exists.mp (hxs x (List.mem_cons_self x t))
    subst ha
    subst hb
    simp only [fqCumprodAux, List.mem_cons] at hv
    rcases hv with hv | hv
    · subst hv; simp [fqMul]
    · exact ih (fqMul (some a) (some b)) (by simp [fqMul])
        (fun y hy => hxs y (List.mem_cons_of_mem _ hy)) v hv

theorem drawdown_zip_nonpos (cs : List FQ) :
    ∀ (a : ℚ), 1 ≤ a → (∀ c ∈ cs, c.isSome = true) →
    ∀ v ∈ List.zipWith (fun c m => fqDiv (fqSub c m) m) cs (fqRunningMaxAux (some a) cs),
      ∃ m, v = some m ∧ m ≤ 0 := by
  induction cs with
  | nil => intro a _ _ v hv; simp at hv
  | cons c rest ih =>
    intro a ha hall v hv
    obtain ⟨q, hq⟩ := Option.isSome_iff_exists.mp (hall c (List.mem_cons_self c rest))
    subst hq
    have hmaxden : (0 : ℚ) < max a q :=
      lt_of_lt_of_le zero_lt_one (le_trans ha (le_max_left a q))
    simp only [fqRunningMaxAux, fqMax, List.zipWith_cons_cons, List.mem_cons] at hv
    rcases hv with hv | hv
    · refine ⟨(q - max a q) / max a q, ?_, ?_⟩
      · rw [hv]
        simp [fqSub, fqDiv, ne_of_gt hmaxden]
      · exact div_nonpos_iff.mpr (Or.inr ⟨sub_nonpos.mpr (le_max_right a q), hmaxden.le⟩)
    · exact ih (max a q) (ha.trans (le_max_left a q))
        (fun y hy => hall y (List.mem_cons_of_mem _ hy)) v hv

theorem drawdownRow_ne_nil (row : List ℚ) : drawdownRow row ≠ [] := by
  simp [drawdownRow, fqRunningMax]

theorem drawdownRow_nonpos (row : List ℚ) (h : ∀ x ∈ row, x ≠ 0) :
    ∀ v ∈ drawdownRow row, ∃ m, v = some m ∧ m ≤ 0 := by
  intro v hv
  have hsome1 : ∀ x ∈ (pairwiseReturns row).map (fun r => fqAdd (some 1) r),
      x.isSome = true := by
    intro x hx
    obtain ⟨r, hr, rfl⟩ := List.mem_map.mp hx
    obtain ⟨b, hb⟩ := Option.isSome_iff_exists.mp (pairwiseReturns_isSome row h r hr)
    rw [hb]
    simp [fqAdd]
  have hcs : ∀ c ∈ fqCumprodAux (some 1)
      ((pairwiseReturns row).map (fun r => fqAdd (some 1) r)), c.isSome = true :=
    fqCumprodAux_isSome _ (some 1) (by simp) hsome1
  simp only [drawdownRow, fqRunningMax, List.zipWith_cons_cons, List.mem_cons] at hv
  rcases hv with hv | hv
  · refine ⟨0, ?_, le_refl 0⟩
    rw [hv]
    simp [fqSub, fqDiv]
  · exact drawdown_zip_nonpos _ 1 (le_refl 1) hcs v hv

theorem fqMinimum_nonpos (xs : List FQ) (hne : xs ≠ [])
    (h : ∀ v ∈ xs, ∃ m, v = some m ∧ m ≤ 0) :
    ∃ m, fqMinimum xs = some m ∧ m ≤ 0 := by
  cases xs with
  | nil => exact absurd rfl hne
  | cons x rest =>
    obtain ⟨a, ha, ha0⟩ := h x (List.mem_cons_self x rest)
    subst ha
    have haux : ∀ (ys : List FQ) (a : ℚ), a ≤ 0 →
        (∀ y ∈ ys, ∃ m, y = some m ∧ m ≤ 0) →
        ∃ m, ys.foldl fqMin (some a) = some m ∧ m ≤ 0 := by
      intro ys
      induction ys with
      | nil => exact fun a h0 _ => ⟨a, rfl, h0⟩
      | cons y t ih =>
        intro a h0 hy
        obtain ⟨b, hb, hb0⟩ := hy y (List.mem_cons_self y t)
        subst hb
        obtain ⟨m, hm, hm0⟩ := ih (min a b) (le_trans (min_le_left a b) h0)
          (fun z hz => hy z (List.mem_cons_of_mem _ hz))
        exact ⟨m, by simpa [fqMin] using hm, hm0⟩
    exact haux rest a ha0 (fun y hy => h y (List.mem_cons_of_mem _ hy))

theorem statMaxDrawdown_nonpos (portfolioPaths : List (List ℚ))
    (hne : portfolioPaths ≠ [])
    (hnz : ∀ row ∈ portfolioPaths, ∀ x ∈ row, x ≠ 0) :
    ∃ m, statMaxDrawdown portfolioPaths = some m ∧ m ≤ 0 := by
  rw [statMaxDrawdown]
  apply fqMinimum_nonpos
  · obtain ⟨p, rest, rfl⟩ := List.exists_cons_of_ne_nil hne
    obtain ⟨v, hv⟩ := List.exists_mem_of_ne_nil _ (drawdownRow_ne_nil p)
    exact List.ne_nil_of_mem (List.mem_flatten.mpr ⟨drawdownRow p,
      List.mem_map.mpr ⟨p, List.mem_cons_self p rest, rfl⟩, hv⟩)
  · intro v hv
    obtain ⟨l, hl, hvl⟩ := List.mem_flatten.mp hv
    obtain ⟨row, hrow, rfl⟩ := List.mem_map.mp hl
    exact drawdownRow_nonpos row (hnz row hrow) v hvl

/-- C9 (corrected, amended form): for every nonempty simulation matrix
with no zero path value, the maximum-drawdown statistic — the global
minimum over all simulations and days of
`(cumulative - running_max) / running_max` computed from the per-day
portfolio returns — is finite and at most 0: the cumulative path starts
at 1, the running maximum is at least 1 and at least the current
cumulative value, so every drawdown entry is nonpositive.  (When some
path value is zero the day-on-day return division makes the statistic
non-finite, and non-finite is not at most 0 — see the
counterexample.) -/
theorem c9_maximum_drawdown_nonpositive (sqrtQ : ℚ → ℚ) (powQ : ℚ → ℚ → ℚ)
    (portfolioPaths : List (List ℚ)) (initialValue riskFreeRate : ℚ)
    (timeHorizonDays : ℕ) (confidenceLevels : List ℚ)
    (hne : portfolioPaths ≠ [])
    (hnz : ∀ row ∈ portfolioPaths, ∀ x ∈ row, x ≠ 0) :
    ∃ m, (calculateSimulationStatistics sqrtQ powQ portfolioPaths initialValue
        riskFreeRate timeHorizonDays confidenceLevels).maximumDrawdown = some m ∧
      m ≤ 0 := by
  have h := statMaxDrawdown_nonpos portfolioPaths hne hnz
  simpa only [calculateSimulationStatistics] using h

theorem c9_witness :
    ∃ m, (calculateSimulationStatistics (fun _ => 0) (fun _ _ => 0)
        [[100, 90], [100, 110]] 100 (2 / 100) 1 [5 / 100]).maximumDrawdown = some m ∧
      m ≤ 0 :=
  c9_maximum_drawdown_nonpositive (fun _ => 0) (fun _ _ => 0)
    [[100, 90], [100, 110]] 100 (2 / 100) 1 [5 / 100] (by simp)
    (by
      intro row hrow x hx
      fin_cases hrow <;> fin_cases hx <;> norm_num)

/-- The exact rational values of the returns array when the initial
value is nonzero. -/
def pureReturns (portfolioPaths : List (List ℚ)) (initialValue : ℚ) : List ℚ :=
  (statFinalValues portfolioPaths).map (fun f => (f - initialValue) / initialValue)

theorem statReturns_seq (portfolioPaths : List (List ℚ)) (initialValue : ℚ)
    (hinit : initialValue ≠ 0) :
    fqSeq (statReturns portfolioPaths initialValue) =
      some (pureReturns portfolioPaths initialValue) := by
  have h1 : statReturns portfolioPaths initialValue =
      (pureReturns portfolioPaths initialValue).map some := by
    rw [statReturns, pureReturns, List.map_map]
    exact List.map_congr_left (fun f _ => by simp [fqDiv, hinit, Function.comp])
  rw [h1, fqSeq_map_some]

theorem fqLt_eq_true {a b : FQ} (h : fqLt a b = true) :
    ∃ x y, a = some x ∧ b = some y ∧ x < y := by
  cases a with
  | none => simp [fqLt] at h
  | some x =>
    cases b with
    | none => simp [fqLt] at h
    | some y => exact ⟨x, y, rfl, rfl, by simpa [fqLt] using h⟩

/-- Every `FQ`-valued statistic of the bundle is a finite value. -/
def bundleAllFinite (b : StatisticsBundle) : Prop :=
  b.meanFinalValue.isSome = true ∧ b.stdFinalValue.isSome = true ∧
  b.meanReturn.isSome = true ∧ b.medianReturn.isSome = true ∧
  b.stdReturn.isSome = true ∧ b.minReturn.isSome = true ∧
  b.maxReturn.isSome = true ∧ b.sharpe.isSome = true ∧
  b.sortino.isSome = true ∧ b.calmar.isSome = true ∧
  b.expectedShortfall95.isSome = true ∧ b.expectedShortfall99.isSome = true ∧
  b.probPositive.isSome = true ∧ b.probLoss5.isSome = true ∧
  b.probLoss10.isSome = true ∧ b.probGain10.isSome = true ∧
  b.probGain20.isSome = true ∧ b.skewnessStat.isSome = true ∧
  b.kurtosisStat.isSome = true ∧ b.maximumDrawdown.isSome = true ∧
  b.downsideDeviation.isSome = true

theorem statFinalValues_ne_nil {portfolioPaths : List (List ℚ)}
    (hne : portfolioPaths ≠ []) : statFinalValues portfolioPaths ≠ [] := by
  simpa [statFinalValues] using hne

theorem statReturns_ne_nil (portfolioPaths : List (List ℚ)) (initialValue : ℚ)
    (hne : portfolioPaths ≠ []) : statReturns portfolioPaths initialValue ≠ [] := by
  simpa [statReturns, statFinalValues] using hne

theorem fqStd_isSome_of_seq {sqrtQ : ℚ → ℚ} {xs : List FQ} {l : List ℚ}
    (h : fqSeq xs = some l) (hne : xs ≠ []) : (fqStd sqrtQ xs).isSome = true := by
  rw [fqStd, fqVariance_of_seq h hne]
  rfl

theorem fqMean_isSome_of_seq {xs : List FQ} {l : List ℚ}
    (h : fqSeq xs = some l) (hne : xs ≠ []) : (fqMean xs).isSome = true := by
  rw [fqMean_of_seq h hne]
  rfl

theorem statExcessReturns_seq (powQ : ℚ → ℚ → ℚ) (portfolioPaths : List (List ℚ))
    (initialValue riskFreeRate : ℚ) (timeHorizonDays : ℕ)
    (hinit : initialValue ≠ 0) :
    fqSeq (statExcessReturns powQ portfolioPaths initialValue riskFreeRate
        timeHorizonDays) =
      some ((pureReturns portfolioPaths initialValue).map
        (fun x => x - statAnnualizedRf powQ riskFreeRate timeHorizonDays)) := by
  rw [statExcessReturns]
  exact fqSeq_map (fun x => rfl) (statReturns_seq portfolioPaths initialValue hinit)

theorem statExcessReturns_ne_nil (powQ : ℚ → ℚ → ℚ) (portfolioPaths : List (List ℚ))
    (initialValue riskFreeRate : ℚ) (timeHorizonDays : ℕ)
    (hne : portfolioPaths ≠ []) :
    statExcessReturns powQ portfolioPaths initialValue riskFreeRate
      timeHorizonDays ≠ [] := by
  simpa [statExcessReturns, statReturns, statFinalValues] using hne

theorem statSharpe_isSome {sqrtQ : ℚ → ℚ} {powQ : ℚ → ℚ → ℚ}
    {portfolioPaths : List (List ℚ)} {initialValue riskFreeRate : ℚ}
    {timeHorizonDays : ℕ} (hne : portfolioPaths ≠ []) (hinit : initialValue ≠ 0) :
    (statSharpe sqrtQ powQ portfolioPaths initialValue riskFreeRate
      timeHorizonDays).isSome = true := by
  rw [statSharpe]
  by_cases hb : fqLt (some 0) (statStdReturns sqrtQ portfolioPaths initialValue) = true
  · rw [if_pos hb]
    obtain ⟨x, y, hx, hy, hxy⟩ := fqLt_eq_true hb
    have hmean := fqMean_of_seq
      (statExcessReturns_seq powQ portfolioPaths initialValue riskFreeRate
        timeHorizonDays hinit)
      (statExcessReturns_ne_nil powQ portfolioPaths initialValue riskFreeRate
        timeHorizonDays hne)
    rw [hmean, hy, fqDiv]
    injection hx with hx0
    rw [if_neg (by rw [← hx0] at hxy; exact (ne_of_lt hxy).symm)]
    rfl
  · rw [if_neg hb]
    rfl

theorem statSortino_isSome {sqrtQ : ℚ → ℚ} {powQ : ℚ → ℚ → ℚ}
    {portfolioPaths : List (List ℚ)} {initialValue riskFreeRate : ℚ}
    {timeHorizonDays : ℕ} (hne : portfolioPaths ≠ []) (hinit : initialValue ≠ 0) :
    (statSortino sqrtQ powQ portfolioPaths initialValue riskFreeRate
      timeHorizonDays).isSome = true := by
  rw [statSortino]
  by_cases hb : fqLt (some 0) (statDownsideDeviation sqrtQ portfolioPaths initialValue) = true
  · rw [if_pos hb]
    obtain ⟨x, y, hx, hy, hxy⟩ := fqLt_eq_true hb
    have hmean := fqMean_of_seq
      (statExcessReturns_seq powQ portfolioPaths initialValue riskFreeRate
        timeHorizonDays hinit)
      (statExcessReturns_ne_nil powQ portfolioPaths initialValue riskFreeRate
        timeHorizonDays hne)
    rw [hmean, hy, fqDiv]
    injection hx with hx0
    rw [if_neg (by rw [← hx0] at hxy; exact (ne_of_lt hxy).symm)]
    rfl
  · rw [if_neg hb]
    rfl

theorem statCalmar_isSome {portfolioPaths : List (List ℚ)} {initialValue : ℚ}
    (hne : portfolioPaths ≠ []) (hinit : initialValue ≠ 0) :
    (statCalmar portfolioPaths initialValue).isSome = true := by
  rw [statCalmar]
  by_cases hb : fqLt (statMaxDrawdown portfolioPaths) (some 0) = true
  · rw [if_pos hb]
    obtain ⟨x, y, hx, hy, hxy⟩ := fqLt_eq_true hb
    have hmean := fqMean_of_seq (statReturns_seq portfolioPaths initialValue hinit)
      (statReturns_ne_nil portfolioPaths initialValue hne)
    rw [hmean, hx, fqAbs]
    injection hy with hy0
    have hx0 : x ≠ 0 := by
      rw [← hy0] at hxy
      exact ne_of_lt hxy
    rw [show Option.map (fun z => |z|) (some x) = some |x| from rfl]
    rw [fqDiv, if_neg (abs_ne_zero.mpr hx0)]
    rfl
  · rw [if_neg hb]
    rfl

theorem statProb_isSome {portfolioPaths : List (List ℚ)} {initialValue : ℚ}
    (hne : portfolioPaths ≠ []) (test : FQ → Bool) :
    (statProb (statReturns portfolioPaths initialValue) test).isSome = true := by
  rw [statProb, fqDiv]
  have hlen : ((statReturns portfolioPaths initialValue).length : ℚ) ≠ 0 := by
    have := statReturns_ne_nil portfolioPaths initialValue hne
    exact_mod_cast fun h0 => this (List.eq_nil_of_length_eq_zero (by exact_mod_cast h0))
  rw [if_neg hlen]
  rfl

theorem statES_isSome {portfolioPaths : List (List ℚ)} (q : ℚ)
    (hne : portfolioPaths ≠ []) (hq0 : 0 ≤ q) (hq1 : q ≤ 100) :
    (statES portfolioPaths q).isSome = true := by
  obtain ⟨e, he, _⟩ := es_le_var (statFinalValues portfolioPaths) q
    (statFinalValues_ne_nil hne) hq0 hq1
  rw [statES, statVar]
  rw [he]
  rfl

theorem statDownsideDeviation_isSome {sqrtQ : ℚ → ℚ}
    {portfolioPaths : List (List ℚ)} {initialValue : ℚ}
    (hinit : initialValue ≠ 0) :
    (statDownsideDeviation sqrtQ portfolioPaths initialValue).isSome = true := by
  rw [statDownsideDeviation]
  by_cases hlen : (statDownsideReturns portfolioPaths initialValue).length > 0
  · rw [if_pos hlen]
    have hsub : ∀ x ∈ statDownsideReturns portfolioPaths initialValue,
        x.isSome = true := by
      intro x hx
      rw [statDownsideReturns] at hx
      exact fqSeq_isSome (statReturns_seq portfolioPaths initialValue hinit) x
        (List.mem_of_mem_filter hx)
    obtain ⟨l, hl⟩ := fqSeq_of_all_isSome hsub
    exact fqStd_isSome_of_seq hl (by
      intro h0
      rw [h0] at hlen
      simp at hlen)
  · rw [if_neg hlen]
    rfl

theorem fqSkew_isSome {sqrtQ : ℚ → ℚ} {xs : List FQ} {l : List ℚ}
    (h : fqSeq xs = some l) (hne : l ≠ []) (hvar : centralMoment l 2 ≠ 0) :
    (fqSkew sqrtQ xs).isSome = true := by
  rw [fqSkew, h]
  show (if l.length = 0 then none
    else if centralMoment l 2 = 0 then none
    else some (centralMoment l 3 /
      (centralMoment l 2 * sqrtQ (centralMoment l 2)))).isSome = true
  rw [if_neg (by simpa using hne), if_neg hvar]
  rfl

theorem fqKurtosis_isSome {xs : List FQ} {l : List ℚ}
    (h : fqSeq xs = some l) (hne : l ≠ []) (hvar : centralMoment l 2 ≠ 0) :
    (fqKurtosis xs).isSome = true := by
  rw [fqKurtosis, h]
  show (if l.length = 0 then none
    else if centralMoment l 2 = 0 then none
    else some (centralMoment l 4 /
      (centralMoment l 2 * centralMoment l 2) - 3)).isSome = true
  rw [if_neg (by simpa using hne), if_neg hvar]
  rfl

/-- C7 (corrected, amended form): provided the simulation matrix is
nonempty, the initial value is nonzero, every path entry is nonzero,
and the final-value returns have nonzero variance (the denominators the
code leaves unguarded), every statistic in the bundle is finite; and
the Sharpe, Sortino and Calmar guards return the sentinel 0 whenever
their denominator (standard deviation of returns, downside deviation,
maximum drawdown) is zero.  Without those conditions the claim fails:
with initial value 0 the returns array is non-finite and so is the mean
return (see the counterexample). -/
theorem c7_statistics_finite_under_nondegeneracy (sqrtQ : ℚ → ℚ) (powQ : ℚ → ℚ → ℚ)
    (portfolioPaths : List (List ℚ)) (initialValue riskFreeRate : ℚ)
    (timeHorizonDays : ℕ) (confidenceLevels : List ℚ)
    (hne : portfolioPaths ≠ [])
    (hinit : initialValue ≠ 0)
    (hnz : ∀ row ∈ portfolioPaths, ∀ x ∈ row, x ≠ 0)
    (hvar : centralMoment (pureReturns portfolioPaths initialValue) 2 ≠ 0) :
    bundleAllFinite (calculateSimulationStatistics sqrtQ powQ portfolioPaths
      initialValue riskFreeRate timeHorizonDays confidenceLevels) ∧
    ((calculateSimulationStatistics sqrtQ powQ portfolioPaths initialValue
        riskFreeRate timeHorizonDays confidenceLevels).stdReturn = some 0 →
      (calculateSimulationStatistics sqrtQ powQ portfolioPaths initialValue
        riskFreeRate timeHorizonDays confidenceLevels).sharpe = some 0) ∧
    ((calculateSimulationStatistics sqrtQ powQ portfolioPaths initialValue
        riskFreeRate timeHorizonDays confidenceLevels).downsideDeviation = some 0 →
      (calculateSimulationStatistics sqrtQ powQ portfolioPaths initialValue
        riskFreeRate timeHorizonDays confidenceLevels).sortino = some 0) ∧
    ((calculateSimulationStatistics sqrtQ powQ portfolioPaths initialValue
        riskFreeRate timeHorizonDays confidenceLevels).maximumDrawdown = some 0 →
      (calculateSimulationStatistics sqrtQ powQ portfolioPaths initialValue
        riskFreeRate timeHorizonDays confidenceLevels).calmar = some 0) := by
  have hseq := statReturns_seq portfolioPaths initialValue hinit
  have hrne := statReturns_ne_nil portfolioPaths initialValue hne
  have hfinne := statFinalValues_ne_nil hne
  have hplen : pureReturns portfolioPaths initialValue ≠ [] := by
    simpa [pureReturns, statFinalValues] using hne
  simp only [bundleAllFinite, calculateSimulationStatistics]
  refine ⟨⟨?_, ?_, ?_, ?_, ?_, ?_, ?_, ?_, ?_, ?_, ?_, ?_, ?_, ?_, ?_, ?_, ?_, ?_,
    ?_, ?_, ?_⟩, ?_, ?_, ?_⟩
  · exact fqMean_isSome_of_seq (fqSeq_map_some _) (by simpa using hfinne)
  · exact fqStd_isSome_of_seq (fqSeq_map_some _) (by simpa using hfinne)
  · exact fqMean_isSome_of_seq hseq hrne
  · rw [fqMedian, if_neg (by simpa [List.isEmpty_iff] using hrne), hseq]
    rfl
  · rw [statStdReturns]
    exact fqStd_isSome_of_seq hseq hrne
  · obtain ⟨q, hq⟩ := fqMinimum_of_seq hseq hrne
    rw [hq]; rfl
  · obtain ⟨q, hq⟩ := fqMaximum_of_seq hseq hrne
    rw [hq]; rfl
  · exact statSharpe_isSome hne hinit
  · exact statSortino_isSome hne hinit
  · exact statCalmar_isSome hne hinit
  · exact statES_isSome 5 hne (by norm_num) (by norm_num)
  · exact statES_isSome 1 hne (by norm_num) (by norm_num)
  · exact statProb_isSome hne _
  · exact statProb_isSome hne _
  · exact statProb_isSome hne _
  · exact statProb_isSome hne _
  · exact statProb_isSome hne _
  · exact fqSkew_isSome hseq hplen hvar
  · exact fqKurtosis_isSome hseq hplen hvar
  · obtain ⟨m, hm, _⟩ := statMaxDrawdown_nonpos portfolioPaths hne hnz
    rw [hm]; rfl
  · exact statDownsideDeviation_isSome hinit
  · intro h
    rw [statSharpe, h]
    simp [fqLt]
  · intro h
    rw [statSortino, h]
    simp [fqLt]
  · intro h
    rw [statCalmar, h]
    simp [fqLt]

theorem c7_witness :
    bundleAllFinite (calculateSimulationStatistics (fun _ => 0) (fun _ _ => 0)
      [[100, 90], [100, 110]] 100 (2 / 100) 1 [5 / 100]) :=
  (c7_statistics_finite_under_nondegeneracy (fun _ => 0) (fun _ _ => 0)
    [[100, 90], [100, 110]] 100 (2 / 100) 1 [5 / 100]
    (by simp)
    (by norm_num)
    (by
      intro row hrow x hx
      fin_cases hrow <;> fin_cases hx <;> norm_num)
    (by norm_num [centralMoment, meanQ, pureReturns, statFinalValues])).1

/-- C7 counterexample: at initial value 0 (an empty portfolio is a
reachable input, and `summarize` takes the initial value as an
argument), `returns = (final - 0) / 0` is non-finite and so is the mean
return — the claim that every value in the bundle is finite fails. -/
theorem c7_counterexample :
    (calculateSimulationStatistics (fun _ => 0) (fun _ _ => 0) [[100, 110]] 0
      (2 / 100) 1 [5 / 100]).meanReturn = none := by
  show fqMean (statReturns [[100, 110]] 0) = none
  have h1 : statReturns [[100, 110]] 0 = [none] := by
    simp [statReturns, statFinalValues, fqDiv]
  rw [h1]
  rfl

/-- C9 counterexample: the all-zeros path matrix — exactly what the
engine produces for an all-zero-weight portfolio (weights default to 0
via `.get(ticker, 0)`) — contains a zero path value, so the day-on-day
return `np.diff(paths) / paths[:, :-1]` divides by zero, the drawdown
pipeline propagates the non-finite value, and `np.min(drawdowns)` is
non-finite (`none` in the model, NaN in floats) — which is not at most
0.  The claim "the maximum drawdown is always <= 0 for every simulation
matrix" therefore fails at this input. -/
theorem c9_counterexample :
    (calculateSimulationStatistics (fun _ => 0) (fun _ _ => 0) [[0, 0]] 100
      (2 / 100) 1 [5 / 100]).maximumDrawdown = none ∧
    ¬ ∃ m, (calculateSimulationStatistics (fun _ => 0) (fun _ _ => 0) [[0, 0]] 100
      (2 / 100) 1 [5 / 100]).maximumDrawdown = some m ∧ m ≤ 0 := by
  have h : (calculateSimulationStatistics (fun _ => 0) (fun _ _ => 0) [[0, 0]] 100
      (2 / 100) 1 [5 / 100]).maximumDrawdown = none := by
    show statMaxDrawdown [[0, 0]] = none
    have h1 : drawdownRow [0, 0] = [some 0, none] := by
      simp [drawdownRow, pairwiseReturns, fqCumprodAux, fqRunningMax,
        fqRunningMaxAux, fqDiv, fqAdd, fqMul, fqSub, fqMax]
    rw [statMaxDrawdown]
    simp only [List.map_cons, List.map_nil, h1]
    rfl
  refine ⟨h, ?_⟩
  rintro ⟨m, hm, _⟩
  rw [h] at hm
  exact Option.noConfusion hm
